import Mathlib

/-!
Verification of the weird-language front-end parser (src/weirdc/ast.py).

The source is a recursive-descent parser over a stream of lexical tokens.
We embed it shallowly: tokens are a structure, the token cursor is either a
plain suffix of the token list (used by the parser functions, justified by
the cursor lemmas below) or the faithful deque-based lookahead cursor of
class _HandyDandyTokenIterator; each parser method becomes a function
from the remaining token list to an Except value carrying the parsed node
and the rest of the list.  Mutual recursion of the grammar is handled with
an explicit fuel parameter; the top-level parse function supplies more
fuel than any input of its length can use.

Python exceptions are mapped to the error taxonomy of the specification:
EOFError and StopIteration become unexpectedEndOfInput, the assertion in
check_and_pop becomes unexpectedToken, the keyword assertion in parse_name
becomes reservedKeywordUsed, and ValueError (raised at expression dispatch
and by int()) becomes invalidToken.
-/

/-- A lexical token as produced by the external tokenizer: a kind
(NAME, INTEGER, STRING, OP), the raw text value and a start and end
source position.  Positions are opaque to the parser and only copied
into nodes; we model them as natural numbers.  The field name endPos
stands for the end attribute of the source (end is a Lean keyword). -/
structure Token where
  kind : String
  value : String
  start : Nat
  endPos : Nat
deriving DecidableEq

/-- The info property of a token: the pair of its kind and value. -/
def Token.info (t : Token) : String × String := (t.kind, t.value)

/-- The error taxonomy of the parser (section 7 of the specification). -/
inductive Err where
  | unexpectedEndOfInput
  | unexpectedToken (kind : String) (value : Option String) (actual : Token)
  | invalidToken (actual : Token)
  | reservedKeywordUsed (name : String)
  | outOfFuel
deriving DecidableEq

/-- The AST node model: one constructor per node class created by
_nodetype in the source.  Every variant carries the start and end
source positions (endPos is the end attribute). -/
inductive Node where
  | Name (name : String) (start endPos : Nat)
  | Integer (value : Int) (start endPos : Nat)
  | String (value : String) (start endPos : Nat)
  | FunctionCall (function : Node) (arguments : List Node) (start endPos : Nat)
  | ExpressionStatement (expression : Node) (start endPos : Nat)
  | Declaration (type : Node) (var : String) (value : Option Node) (start endPos : Nat)
  | Assignment (var : Node) (value : Node) (start endPos : Nat)
  | If (condition : Node) (body : List Node) (start endPos : Nat)
  | FunctionDef (name : String) (arguments : List (Node × String))
      (returntype : Option Node) (body : List Node) (start endPos : Nat)
  | Return (value : Node) (start endPos : Nat)
  | DecRef (name : String) (start endPos : Nat)

/-- The start position of a node. -/
def Node.start : Node → Nat
  | .Name _ s _ => s
  | .Integer _ s _ => s
  | .String _ s _ => s
  | .FunctionCall _ _ s _ => s
  | .ExpressionStatement _ s _ => s
  | .Declaration _ _ _ s _ => s
  | .Assignment _ _ s _ => s
  | .If _ _ s _ => s
  | .FunctionDef _ _ _ _ s _ => s
  | .Return _ s _ => s
  | .DecRef _ s _ => s

/-- The end position of a node (the end attribute of the source). -/
def Node.endPos : Node → Nat
  | .Name _ _ e => e
  | .Integer _ _ e => e
  | .String _ _ e => e
  | .FunctionCall _ _ _ e => e
  | .ExpressionStatement _ _ e => e
  | .Declaration _ _ _ _ e => e
  | .Assignment _ _ _ e => e
  | .If _ _ _ e => e
  | .FunctionDef _ _ _ _ _ e => e
  | .Return _ _ e => e
  | .DecRef _ _ e => e

/-- Abbreviation for the string type, needed where a signature in the
Node namespace would otherwise resolve String to the Node constructor
of the same name. -/
abbrev Str := String

/-- The name attribute of the nodes that have one; parse_name always
returns a Name node, so only the first case is ever reached by the
parser. -/
def Node.nameOf : Node → Str
  | .Name n _ _ => n
  | .FunctionDef n _ _ _ _ _ => n
  | .DecRef n _ _ => n
  | _ => ""

/-- The keyword set of the source: KEYWORDS = {return, if}. -/
def KEYWORDS : List String := ["return", "if"]

/-- A parser step: consumes a prefix of the remaining token list and
returns a value together with the rest, or fails. -/
abbrev P (α : Type) := List Token → Except Err (α × List Token)

/-- pop of the token cursor, acting on the not-yet-consumed token list:
consume and return the next token (StopIteration at exhaustion). -/
def pop : P Token := fun ts =>
  match ts with
  | [] => .error .unexpectedEndOfInput
  | t :: rest => .ok (t, rest)

/-- coming_up(n) of the token cursor, acting on the not-yet-consumed
token list: return the n-th upcoming token (1-indexed) without
consuming anything; EOFError when fewer than n tokens remain. -/
def comingUp (n : Nat) : P Token := fun ts =>
  match ts[n - 1]? with
  | some t => .ok (t, ts)
  | none => .error .unexpectedEndOfInput

/-- check_and_pop: peek the next token, assert its kind (and, when
given, its value), then pop it. -/
def checkAndPop (kind : String) (value : Option String) : P Token := fun ts => do
  let (t, ts) ← comingUp 1 ts
  if t.kind = kind then
    match value with
    | none => pop ts
    | some v => if t.value = v then pop ts else .error (.unexpectedToken kind value t)
  else .error (.unexpectedToken kind value t)

/-- parse_name: pop a NAME token, optionally reject keywords, and build
a Name node spanning the token. -/
def parseName (checkForKeywords : Bool) : P Node := fun ts => do
  let (token, ts) ← checkAndPop "NAME" none ts
  if checkForKeywords then
    if token.value ∈ KEYWORDS then .error (.reservedKeywordUsed token.value)
    else .ok (.Name token.value token.start token.endPos, ts)
  else .ok (.Name token.value token.start token.endPos, ts)

/-- Base-10 digit accumulation for pyInt. -/
def decDigitsAux (acc : Nat) : List Char → Option Nat
  | [] => some acc
  | c :: cs =>
      if 48 ≤ c.toNat ∧ c.toNat ≤ 57 then decDigitsAux (acc * 10 + (c.toNat - 48)) cs
      else none

/-- The int() conversion of Python on the strings the tokenizer can
produce for an INTEGER token: an optional minus sign followed by at
least one base-10 digit; anything else raises ValueError (none here).
Written structurally over the character list so that it reduces by
rfl (String.toInt? is defined by well-founded recursion and does
not). -/
def pyInt (s : String) : Option Int :=
  match s.data with
  | [] => none
  | c :: cs =>
      if c = '-' then
        match cs with
        | [] => none
        | _ => (decDigitsAux 0 cs).map (fun n => -(n : Int))
      else (decDigitsAux 0 (c :: cs)).map (fun n => (n : Int))

/-- parse_integer: pop an INTEGER token and read its value in base 10
(int() raises ValueError on malformed text, modelled as invalidToken;
the tokenizer only produces digit strings). -/
def parseInteger : P Node := fun ts => do
  let (token, ts) ← checkAndPop "INTEGER" none ts
  match pyInt token.value with
  | some n => .ok (.Integer n token.start token.endPos, ts)
  | none => .error (.invalidToken token)

/-- parse_string: pop a STRING token and strip the first and last
characters (the quote delimiters); no escape processing. -/
def parseString : P Node := fun ts => do
  let (token, ts) ← checkAndPop "STRING" none ts
  .ok (.String ((token.value.drop 1).dropRight 1) token.start token.endPos, ts)

/-- The while-True loop of _parse_comma_list, entered when the list is
not empty: parse an element, then either consume the closing delimiter,
or consume a comma and either consume the closing delimiter (trailing
comma) or iterate.  The element parser pm is a parameter, as in the
source (parsemethod); fuel bounds the number of iterations. -/
def parseCommaListLoop (pm : P α) (stop : String) : Nat → P (List α × Token)
  | 0 => fun _ => .error .outOfFuel
  | fuel + 1 => fun ts => do
      let (element, ts) ← pm ts
      let (t, ts) ← comingUp 1 ts
      if t.info = ("OP", stop) then do
        let (lastToken, ts) ← pop ts
        .ok (([element], lastToken), ts)
      else do
        let (_, ts) ← checkAndPop "OP" (some ",") ts
        let (t2, ts) ← comingUp 1 ts
        if t2.info = ("OP", stop) then do
          let (lastToken, ts) ← pop ts
          .ok (([element], lastToken), ts)
        else do
          let ((elements, lastToken), ts) ← parseCommaListLoop pm stop fuel ts
          .ok ((element :: elements, lastToken), ts)

/-- _parse_comma_list: an empty list is the closing delimiter alone;
otherwise run the element loop.  Returns the ordered elements and the
closing token. -/
def parseCommaList (pm : P α) (stop : String) (fuel : Nat) : P (List α × Token) := fun ts => do
  let (t, ts) ← comingUp 1 ts
  if t.info = ("OP", stop) then do
    let (lastToken, ts) ← pop ts
    .ok (([], lastToken), ts)
  else
    parseCommaListLoop pm stop fuel ts

mutual

/-- parse_expression: dispatch on the kind of the next token into one of
the three primary forms (ValueError, i.e. invalidToken, otherwise), then
greedily recognize postfix call suffixes. -/
def parseExpression : Nat → P Node
  | 0 => fun _ => .error .outOfFuel
  | fuel + 1 => fun ts => do
      let (comingUpTok, ts) ← comingUp 1 ts
      let (result, ts) ←
        if comingUpTok.kind = "NAME" then parseName true ts
        else if comingUpTok.kind = "STRING" then parseString ts
        else if comingUpTok.kind = "INTEGER" then parseInteger ts
        else .error (.invalidToken comingUpTok)
      parseCallSuffixes fuel result ts

/-- The while-True loop at the end of parse_expression: peek the next
token; stop unless it is the operator open parenthesis; otherwise
consume a parenthesized comma list of arguments and wrap the result in
a FunctionCall whose callee is the expression parsed so far. -/
def parseCallSuffixes : Nat → Node → P Node
  | 0, _ => fun _ => .error .outOfFuel
  | fuel + 1, result => fun ts => do
      let (nextToken, ts) ← comingUp 1 ts
      if nextToken.kind ≠ "OP" ∨ nextToken.value ≠ "(" then
        .ok (result, ts)
      else do
        let (_openparen, ts) ← checkAndPop "OP" (some "(") ts
        let ((arguments, lastToken), ts) ← parseCommaList (parseExpression fuel) ")" fuel ts
        parseCallSuffixes fuel (.FunctionCall result arguments result.start lastToken.endPos) ts

end

/-- parse_expression_statement: a full expression followed by a
semicolon. -/
def parseExpressionStatement (fuel : Nat) : P Node := fun ts => do
  let (value, ts) ← parseExpression fuel ts
  let (semicolon, ts) ← checkAndPop "OP" (some ";") ts
  .ok (.ExpressionStatement value value.start semicolon.endPos, ts)

/-- assignment: identifier, =, expression, semicolon. -/
def assignment (fuel : Nat) : P Node := fun ts => do
  let (var, ts) ← parseName true ts
  let (_, ts) ← checkAndPop "OP" (some "=") ts
  let (value, ts) ← parseExpression fuel ts
  let (semicolon, ts) ← checkAndPop "OP" (some ";") ts
  .ok (.Assignment var value var.start semicolon.endPos, ts)

/-- _type_and_name: two consecutive identifiers; returns the type node
and the name string.  The print call of the source is debug output with
no effect on parsing. -/
def typeAndName : P (Node × String) := fun ts => do
  let (typenode, ts) ← parseName true ts
  let (name, ts) ← parseName true ts
  .ok ((typenode, name.nameOf), ts)

/-- parse_declaration: a type-and-name pair, then an OP token; if its
value is a semicolon there is no initializer, otherwise an expression
and a semicolon follow.  Note that the node end position is the end of
third_thing in both branches, exactly as in the source. -/
def parseDeclaration (fuel : Nat) : P Node := fun ts => do
  let ((datatype, variableName), ts) ← typeAndName ts
  let (thirdThing, ts) ← checkAndPop "OP" none ts
  if thirdThing.value = ";" then
    .ok (.Declaration datatype variableName none datatype.start thirdThing.endPos, ts)
  else do
    let (initialValue, ts) ← parseExpression fuel ts
    let (_semicolon, ts) ← checkAndPop "OP" (some ";") ts
    .ok (.Declaration datatype variableName (some initialValue) datatype.start thirdThing.endPos, ts)

/-- parse_return: the return keyword, an expression and a semicolon. -/
def parseReturn (fuel : Nat) : P Node := fun ts => do
  let (theReturn, ts) ← checkAndPop "NAME" (some "return") ts
  let (value, ts) ← parseExpression fuel ts
  let (semicolon, ts) ← checkAndPop "OP" (some ";") ts
  .ok (.Return value theReturn.start semicolon.endPos, ts)

mutual

/-- parse_statement: dispatch on at most two upcoming tokens, exactly in
the order of the source. -/
def parseStatement : Nat → P Node
  | 0 => fun _ => .error .outOfFuel
  | fuel + 1 => fun ts => do
      let (first, ts) ← comingUp 1 ts
      if first.kind = "NAME" then
        if first.value = "return" then parseReturn fuel ts
        else if first.value = "if" then parseIf fuel ts
        else if first.value = "function" then parseFunctionDef fuel ts
        else do
          let (afterName, ts) ← comingUp 2 ts
          if afterName.info = ("OP", "=") then assignment fuel ts
          else if afterName.kind = "NAME" then parseDeclaration fuel ts
          else parseExpressionStatement fuel ts
      else parseExpressionStatement fuel ts

/-- parse_if: the if keyword, a condition expression, an opening brace,
statements until the closing brace, and the closing brace. -/
def parseIf : Nat → P Node
  | 0 => fun _ => .error .outOfFuel
  | fuel + 1 => fun ts => do
      let (theIf, ts) ← checkAndPop "NAME" (some "if") ts
      let (condition, ts) ← parseExpression fuel ts
      let (_, ts) ← checkAndPop "OP" (some "\x7b") ts
      let (body, ts) ← parseStatementsUntilBrace fuel ts
      let (closingBrace, ts) ← checkAndPop "OP" (some "\x7d") ts
      .ok (.If condition body theIf.start closingBrace.endPos, ts)

/-- The body loops of parse_if and parse_function_def: parse statements
while the upcoming token is not the closing brace. -/
def parseStatementsUntilBrace : Nat → P (List Node)
  | 0 => fun _ => .error .outOfFuel
  | fuel + 1 => fun ts => do
      let (t, ts) ← comingUp 1 ts
      if t.info = ("OP", "\x7d") then .ok ([], ts)
      else do
        let (s, ts) ← parseStatement fuel ts
        let (rest, ts) ← parseStatementsUntilBrace fuel ts
        .ok (s :: rest, ts)

/-- parse_function_def: the function keyword, the name (parse_name with
its default keyword check), a parenthesized comma list of type-and-name
pairs, an optional returns clause, then an OP token before the body
(check_and_pop with no value: any OP token is accepted there), the body
statements and the closing brace. -/
def parseFunctionDef : Nat → P Node
  | 0 => fun _ => .error .outOfFuel
  | fuel + 1 => fun ts => do
      let (functionKeyword, ts) ← checkAndPop "NAME" (some "function") ts
      let (name, ts) ← parseName true ts
      let (_, ts) ← checkAndPop "OP" (some "(") ts
      let ((arguments, _junk), ts) ← parseCommaList typeAndName ")" fuel ts
      let (t, ts) ← comingUp 1 ts
      let (returntype, ts) ←
        if t.info = ("NAME", "returns") then do
          let (_, ts) ← pop ts
          let (r, ts) ← parseName true ts
          .ok (some r, ts)
        else .ok ((none : Option Node), ts)
      let (_beforeBody, ts) ← checkAndPop "OP" none ts
      let (body, ts) ← parseStatementsUntilBrace fuel ts
      let (closingBrace, ts) ← checkAndPop "OP" (some "\x7d") ts
      .ok (.FunctionDef name.nameOf arguments returntype body
             functionKeyword.start closingBrace.endPos, ts)

end

/-- parse_file: repeatedly check that a token is coming up (EOFError
ends the file cleanly) and parse one statement; errors of a statement
parse propagate unchanged. -/
def parseFileLoop : Nat → P (List Node)
  | 0 => fun _ => .error .outOfFuel
  | fuel + 1 => fun ts =>
      match comingUp 1 ts with
      | .error .unexpectedEndOfInput => .ok ([], ts)
      | .error e => .error e
      | .ok (_, ts) =>
          match parseStatement fuel ts with
          | .error e => .error e
          | .ok (s, ts) =>
              match parseFileLoop fuel ts with
              | .error e => .error e
              | .ok (rest, ts) => .ok (s :: rest, ts)

/-- parse: drive parse_file over a fresh cursor.  The fuel bound
exceeds what any input of this length can consume, since every
recursion level of the grammar consumes at least one token. -/
def parse (tokens : List Token) : Except Err (List Node) :=
  match parseFileLoop (tokens.length + 1) tokens with
  | .error e => .error e
  | .ok (nodes, _) => .ok nodes

/-!
The faithful model of class _HandyDandyTokenIterator: the lookahead
deque _coming_up_stack is a list whose order matches the Python deque
(leftmost element first), and the one-pass producer is the list of
tokens not yet fetched from it.  appendleft is cons, deque.pop takes
the rightmost element, and deque[-n] is the element at index
length - n.
-/

/-- The sequence of not-yet-consumed tokens of a cursor state: the
buffered tokens (next token last in the deque, hence the reverse)
followed by whatever the producer has not yet yielded. -/
def toksOf (stack it : List Token) : List Token := stack.reverse ++ it

/-- pop of _HandyDandyTokenIterator: take the rightmost buffered token,
or the next producer token when the buffer is empty (StopIteration at
exhaustion). -/
def popIt (stack it : List Token) : Except Err (Token × List Token × List Token) :=
  match stack.getLast? with
  | some t => .ok (t, stack.dropLast, it)
  | none =>
      match it with
      | t :: rest => .ok (t, [], rest)
      | [] => .error .unexpectedEndOfInput

/-- The while loop of coming_up: appendleft producer tokens onto the
deque until it holds at least n (EOFError, via StopIteration, when the
producer runs dry first). -/
def fillTo (n : Nat) (stack it : List Token) : Except Err (List Token × List Token) :=
  if stack.length < n then
    match it with
    | [] => .error .unexpectedEndOfInput
    | t :: rest => fillTo n (t :: stack) rest
  else .ok (stack, it)

/-- coming_up(n): fill the deque to n tokens, then read deque[-n], the
element at index length - n.  The index is in range whenever n is at
least 1, which holds at every call site of the source. -/
def comingUpIt (n : Nat) (stack it : List Token) : Except Err (Token × List Token × List Token) :=
  match fillTo n stack it with
  | .error e => .error e
  | .ok (stack, it) =>
      match stack[stack.length - n]? with
      | some t => .ok (t, stack, it)
      | none => .error .unexpectedEndOfInput

/-- something_coming_up: buffer one token if the deque is empty; report
whether any token remains, consuming none. -/
def somethingComingUpIt (stack it : List Token) : Bool × List Token × List Token :=
  if stack.isEmpty then
    match it with
    | [] => (false, stack, it)
    | t :: rest => (true, [t], rest)
  else (true, stack, it)

lemma fillTo_ok (n : Nat) : ∀ (it stack stack' it' : List Token),
    fillTo n stack it = .ok (stack', it') →
    toksOf stack' it' = toksOf stack it ∧ n ≤ stack'.length ∧
      ∃ k, stack' = (it.take k).reverse ++ stack ∧ it' = it.drop k := by
  intro it
  induction it with
  | nil =>
      intro stack stack' it' h
      rw [fillTo] at h
      by_cases hlt : stack.length < n
      · rw [if_pos hlt] at h
        exact absurd h (by simp)
      · rw [if_neg hlt] at h
        obtain ⟨h1, h2⟩ : stack = stack' ∧ ([] : List Token) = it' := by
          simpa using h
        subst h1; subst h2
        exact ⟨rfl, by omega, 0, by simp⟩
  | cons t rest ih =>
      intro stack stack' it' h
      rw [fillTo] at h
      by_cases hlt : stack.length < n
      · rw [if_pos hlt] at h
        obtain ⟨heq, hlen, k, hk1, hk2⟩ := ih (t :: stack) stack' it' h
        refine ⟨?_, hlen, k + 1, ?_, ?_⟩
        · rw [heq]; simp [toksOf]
        · rw [hk1]; simp
        · rw [hk2]; simp
      · rw [if_neg hlt] at h
        obtain ⟨h1, h2⟩ : stack = stack' ∧ t :: rest = it' := by
          simpa using h
        subst h1; subst h2
        exact ⟨rfl, by omega, 0, by simp⟩

lemma fillTo_error (n : Nat) : ∀ (it stack : List Token) (e : Err),
    (fillTo n stack it = .error e ↔
      ((toksOf stack it).length < n ∧ e = .unexpectedEndOfInput)) := by
  intro it
  induction it with
  | nil =>
      intro stack e
      rw [fillTo]
      by_cases hlt : stack.length < n
      · rw [if_pos hlt]
        simp only [toksOf, List.append_nil, List.length_reverse]
        constructor
        · intro h
          have h1 : Err.unexpectedEndOfInput = e := by simpa using h
          exact ⟨hlt, h1.symm⟩
        · rintro ⟨-, h⟩; rw [h]
      · rw [if_neg hlt]
        simp only [toksOf, List.append_nil, List.length_reverse]
        constructor
        · intro h; exact absurd h (by simp)
        · rintro ⟨h, -⟩; omega
  | cons t rest ih =>
      intro stack e
      rw [fillTo]
      by_cases hlt : stack.length < n
      · rw [if_pos hlt]
        rw [ih (t :: stack) e]
        simp only [toksOf, List.length_append, List.length_reverse, List.length_cons]
        constructor <;> (rintro ⟨h1, h2⟩; exact ⟨by omega, h2⟩)
      · rw [if_neg hlt]
        simp only [toksOf, List.length_append, List.length_reverse, List.length_cons]
        constructor
        · intro h; exact absurd h (by simp)
        · rintro ⟨h, -⟩; omega

/-- Reduction of an Except bind on a success value. -/
@[simp] lemma okBind (a : α) (f : α → Except Err β) :
    (Except.ok a >>= f : Except Err β) = f a := rfl

/-- Reduction of an Except bind on an error value. -/
@[simp] lemma errBind (e : Err) (f : α → Except Err β) :
    (Except.error e >>= f : Except Err β) = .error e := rfl

/-- C8: coming_up(n) on any cursor state returns the n-th
not-yet-consumed token (1-indexed) without consuming any token (the
not-yet-consumed sequence is unchanged, and tokens only move from the
one-pass producer into the lookahead buffer, so no underlying token is
fetched twice), and it fails with UnexpectedEndOfInput exactly when
fewer than n tokens remain; pop returns the head of the
not-yet-consumed sequence, leaving its tail, so pops after any
interleaving of peeks still yield the tokens in producer order. -/
theorem c8_cursor_lookahead : ∀ (stack it : List Token) (n : Nat), 1 ≤ n →
    (∀ t stack' it', comingUpIt n stack it = .ok (t, stack', it') →
        (toksOf stack it)[n - 1]? = some t ∧ toksOf stack' it' = toksOf stack it ∧
        ∃ k, stack' = (it.take k).reverse ++ stack ∧ it' = it.drop k) ∧
    (comingUpIt n stack it = .error .unexpectedEndOfInput ↔ (toksOf stack it).length < n) ∧
    (∀ t stack' it', popIt stack it = .ok (t, stack', it') →
        toksOf stack it = t :: toksOf stack' it') ∧
    (popIt stack it = .error .unexpectedEndOfInput ↔ toksOf stack it = []) := by
  intro stack it n hn
  refine ⟨?_, ?_, ?_, ?_⟩
  · intro t stack' it' h
    rw [comingUpIt] at h
    cases hf : fillTo n stack it with
    | error e => rw [hf] at h; exact absurd h (by simp)
    | ok p =>
        obtain ⟨st1, it1⟩ := p
        rw [hf] at h
        simp only [] at h
        obtain ⟨heq, hlen, k, hk1, hk2⟩ := fillTo_ok n it stack st1 it1 hf
        have hidx : st1.length - n < st1.length := by omega
        rw [List.getElem?_eq_getElem hidx] at h
        simp only [Except.ok.injEq, Prod.mk.injEq] at h
        obtain ⟨ht, hs, hi⟩ := h
        subst hs; subst hi
        refine ⟨?_, heq, k, hk1, hk2⟩
        rw [← heq]
        have h1 : n - 1 < st1.reverse.length := by
          rw [List.length_reverse]; omega
        rw [toksOf, List.getElem?_append_left h1, List.getElem?_reverse (by rw [List.length_reverse] at h1; omega)]
        have h2 : st1.length - 1 - (n - 1) = st1.length - n := by omega
        rw [h2, List.getElem?_eq_getElem hidx, ht]
  · rw [comingUpIt]
    cases hf : fillTo n stack it with
    | error e =>
        obtain ⟨hlt, he⟩ := (fillTo_error n it stack e).mp hf
        subst he
        simp [hlt]
    | ok p =>
        obtain ⟨st1, it1⟩ := p
        obtain ⟨heq, hlen, -⟩ := fillTo_ok n it stack st1 it1 hf
        have hidx : st1.length - n < st1.length := by omega
        simp only []
        rw [List.getElem?_eq_getElem hidx]
        have hge : ¬ (toksOf stack it).length < n := by
          rw [← heq, toksOf, List.length_append, List.length_reverse]
          omega
        simp [hge]
  · intro t stack' it' h
    rw [popIt.eq_def] at h
    cases hl : stack.getLast? with
    | some t0 =>
        rw [hl] at h
        simp only [Except.ok.injEq, Prod.mk.injEq] at h
        obtain ⟨ht, hs, hi⟩ := h
        subst hs; subst hi
        rw [← ht]
        have hrec : stack.dropLast ++ [t0] = stack := List.dropLast_append_getLast? t0 hl
        rw [toksOf, toksOf, ← hrec]
        simp
    | none =>
        rw [hl] at h
        rw [List.getLast?_eq_none_iff] at hl
        subst hl
        cases it with
        | nil => exact absurd h (by simp)
        | cons t1 rest =>
            simp only [Except.ok.injEq, Prod.mk.injEq] at h
            obtain ⟨ht, hs, hi⟩ := h
            subst ht; subst hs; subst hi
            simp [toksOf]
  · rw [popIt.eq_def]
    cases hl : stack.getLast? with
    | some t0 =>
        have hne : stack ≠ [] := by
          intro hnil; subst hnil; simp at hl
        constructor
        · intro h; exact absurd h (by simp)
        · intro h
          rw [toksOf] at h
          have h2 := List.append_eq_nil.mp h
          exact absurd (List.reverse_eq_nil_iff.mp h2.1) hne
    | none =>
        rw [List.getLast?_eq_none_iff] at hl
        subst hl
        cases it with
        | nil => simp [toksOf]
        | cons t1 rest => simp [toksOf]

/-- Witness for C8 at a concrete state: one token in the producer,
looked ahead with n = 1. -/
theorem c8_cursor_lookahead_witness :
    (toksOf [] [⟨"NAME", "x", 0, 1⟩])[0]? = some (⟨"NAME", "x", 0, 1⟩ : Token) :=
  (((c8_cursor_lookahead [] [⟨"NAME", "x", 0, 1⟩] 1 (le_refl 1)).1)
    ⟨"NAME", "x", 0, 1⟩ [⟨"NAME", "x", 0, 1⟩] [] rfl).1

/-- C1 is contradicted by the code on a Declaration with an
initializer: parsing the statement Int a = 1 ; gives a Declaration
node whose end position is 7, the end of the = token (third_thing in
parse_declaration), not 10, the end of the terminating semicolon,
which is the last token consumed.  The source computes the semicolon
token and then ignores it in the span. -/
theorem c1_declaration_end_is_op_end :
    parse [⟨"NAME", "Int", 0, 3⟩, ⟨"NAME", "a", 4, 5⟩, ⟨"OP", "=", 6, 7⟩,
      ⟨"INTEGER", "1", 8, 9⟩, ⟨"OP", ";", 9, 10⟩] =
      .ok [.Declaration (.Name "Int" 0 3) "a" (some (.Integer 1 8 9)) 0 7] ∧
    (Node.Declaration (.Name "Int" 0 3) "a" (some (.Integer 1 8 9)) 0 7).endPos ≠
      (⟨"OP", ";", 9, 10⟩ : Token).endPos :=
  ⟨rfl, by decide⟩

/-- C2 claims the parse of if if \x7b \x7d fails with InvalidToken;
it does not: the second if is a NAME token, so expression dispatch
enters parse_name and the keyword assertion fires first. -/
theorem c2_if_if_counterexample :
    ¬ (parse [⟨"NAME", "if", 0, 2⟩, ⟨"NAME", "if", 3, 5⟩, ⟨"OP", "\x7b", 6, 7⟩,
        ⟨"OP", "\x7d", 7, 8⟩] = .error (.invalidToken ⟨"NAME", "if", 3, 5⟩)) := by
  intro h
  have h0 : parse [⟨"NAME", "if", 0, 2⟩, ⟨"NAME", "if", 3, 5⟩, ⟨"OP", "\x7b", 6, 7⟩,
      ⟨"OP", "\x7d", 7, 8⟩] = .error (.reservedKeywordUsed "if") := rfl
  rw [h0] at h
  simp at h

/-- C2 amended: parsing if if \x7b \x7d fails with ReservedKeywordUsed
on the second if, because the keyword has NAME kind and expression
dispatch reaches parse_name, whose keyword check rejects it before any
InvalidToken dispatch failure can occur. -/
theorem c2_if_if_reserved_keyword :
    parse [⟨"NAME", "if", 0, 2⟩, ⟨"NAME", "if", 3, 5⟩, ⟨"OP", "\x7b", 6, 7⟩,
      ⟨"OP", "\x7d", 7, 8⟩] = .error (.reservedKeywordUsed "if") := rfl

/-- C5: parsing the truncated statement Int a (NAME NAME, then end of
input) fails with UnexpectedEndOfInput: the declaration parser asks
check_and_pop for the OP token after the name, coming_up hits the
exhausted producer and EOFError propagates. -/
theorem c5_truncated_declaration_eof :
    parse [⟨"NAME", "Int", 0, 3⟩, ⟨"NAME", "a", 4, 5⟩] =
      .error .unexpectedEndOfInput := rfl

/-- C9: parsing is deterministic: the parse is a pure function of the
token sequence, so two independent runs over equal token sequences
return structurally equal results. -/
theorem c9_parse_deterministic : ∀ ts1 ts2 : List Token, ts1 = ts2 → parse ts1 = parse ts2 := by
  intro ts1 ts2 h
  rw [h]

/-- Witness for C9 at a concrete token sequence. -/
theorem c9_parse_deterministic_witness :
    parse [⟨"NAME", "x", 0, 1⟩, ⟨"OP", ";", 1, 2⟩] =
      parse [⟨"NAME", "x", 0, 1⟩, ⟨"OP", ";", 1, 2⟩] :=
  c9_parse_deterministic _ _ rfl

/-- C3 claims any token other than the opening brace in the body
position of a function definition makes the parse fail with
UnexpectedToken; it does not: the source only checks the token kind
(check_and_pop with no value), so the OP token ; (value different
from the opening brace) is accepted as the body opener and the parse
succeeds. -/
theorem c3_function_body_opener_counterexample :
    parse [⟨"NAME", "function", 0, 8⟩, ⟨"NAME", "f", 9, 10⟩, ⟨"OP", "(", 10, 11⟩,
      ⟨"OP", ")", 11, 12⟩, ⟨"OP", ";", 13, 14⟩, ⟨"OP", "\x7d", 15, 16⟩] =
      .ok [.FunctionDef "f" [] none [] 0 16] ∧
    (⟨"OP", ";", 13, 14⟩ : Token).value ≠ "\x7b" :=
  ⟨rfl, by decide⟩

/-- C3 amended: in the body-opener position of a function definition
the parser checks only that the token has OP kind; a token of any
other kind there (that does not start a returns clause) fails with
UnexpectedToken, while any OP token is accepted (see the
counterexample). -/
theorem c3_function_body_opener_kind_only (fuel : Nat) (t : Token)
    (hk : t.kind ≠ "OP") (hi : t.info ≠ ("NAME", "returns")) :
    parseFunctionDef (fuel + 1)
      [⟨"NAME", "function", 0, 8⟩, ⟨"NAME", "f", 9, 10⟩, ⟨"OP", "(", 10, 11⟩,
        ⟨"OP", ")", 11, 12⟩, t, ⟨"OP", "\x7d", 15, 16⟩] =
    .error (.unexpectedToken "OP" none t) := by
  by_cases hname : t.kind = "NAME"
  · have hv : t.value ≠ "returns" := fun hv => hi (by rw [Token.info, hname, hv])
    simp [parseFunctionDef, parseName, checkAndPop, comingUp, pop, parseCommaList,
          Token.info, KEYWORDS, hk, hname, hv]
  · simp [parseFunctionDef, parseName, checkAndPop, comingUp, pop, parseCommaList,
          Token.info, KEYWORDS, hk, hname]

/-- Witness for the amended C3 at a concrete non-OP token. -/
theorem c3_function_body_opener_kind_only_witness :
    parseFunctionDef 6
      [⟨"NAME", "function", 0, 8⟩, ⟨"NAME", "f", 9, 10⟩, ⟨"OP", "(", 10, 11⟩,
        ⟨"OP", ")", 11, 12⟩, ⟨"NAME", "x", 13, 14⟩, ⟨"OP", "\x7d", 15, 16⟩] =
    .error (.unexpectedToken "OP" none ⟨"NAME", "x", 13, 14⟩) :=
  c3_function_body_opener_kind_only 5 ⟨"NAME", "x", 13, 14⟩ (by decide) (by decide)

/-- C4 claims the function name is parsed with the keyword check
bypassed; it is not: parse_name is called with its default, so a
keyword in the name position of a function statement does fail with
ReservedKeywordUsed. -/
theorem c4_function_name_keyword_counterexample :
    parse [⟨"NAME", "function", 0, 8⟩, ⟨"NAME", "return", 9, 15⟩, ⟨"OP", "(", 15, 16⟩,
      ⟨"OP", ")", 16, 17⟩, ⟨"OP", "\x7b", 18, 19⟩, ⟨"OP", "\x7d", 20, 21⟩] =
      .error (.reservedKeywordUsed "return") := rfl

/-- C4 amended: the function-name identifier is parsed with the
keyword check enabled (parse_name default), so a member of the keyword
set in the name position fails with ReservedKeywordUsed, while any
other NAME (including function and returns, which are not in the
keyword set) is accepted as the function name. -/
theorem c4_function_name_keyword_checked (fuel : Nat) (t : Token) (hname : t.kind = "NAME") :
    (t.value ∈ KEYWORDS →
      parseFunctionDef (fuel + 1 + 1)
        [⟨"NAME", "function", 0, 8⟩, t, ⟨"OP", "(", 15, 16⟩, ⟨"OP", ")", 16, 17⟩,
          ⟨"OP", "\x7b", 18, 19⟩, ⟨"OP", "\x7d", 20, 21⟩] =
        .error (.reservedKeywordUsed t.value)) ∧
    (t.value ∉ KEYWORDS →
      parseFunctionDef (fuel + 1 + 1)
        [⟨"NAME", "function", 0, 8⟩, t, ⟨"OP", "(", 15, 16⟩, ⟨"OP", ")", 16, 17⟩,
          ⟨"OP", "\x7b", 18, 19⟩, ⟨"OP", "\x7d", 20, 21⟩] =
        .ok (.FunctionDef t.value [] none [] 0 21, [])) := by
  constructor
  · intro hv
    simp only [KEYWORDS, List.mem_cons, List.not_mem_nil, or_false] at hv
    rcases hv with hv | hv <;>
      simp [parseFunctionDef, parseName, checkAndPop, comingUp, pop, parseCommaList,
            Token.info, KEYWORDS, hname, hv]
  · intro hv
    simp only [KEYWORDS, List.mem_cons, List.not_mem_nil, or_false, not_or] at hv
    obtain ⟨hv1, hv2⟩ := hv
    simp [parseFunctionDef, parseName, checkAndPop, comingUp, pop, parseCommaList,
          parseStatementsUntilBrace, typeAndName, Node.nameOf,
          Token.info, KEYWORDS, hname, hv1, hv2]

/-- Witness for the amended C4 at the keyword return as the name. -/
theorem c4_function_name_keyword_checked_witness :
    parseFunctionDef 7
      [⟨"NAME", "function", 0, 8⟩, ⟨"NAME", "return", 9, 15⟩, ⟨"OP", "(", 15, 16⟩,
        ⟨"OP", ")", 16, 17⟩, ⟨"OP", "\x7b", 18, 19⟩, ⟨"OP", "\x7d", 20, 21⟩] =
      .error (.reservedKeywordUsed "return") :=
  (c4_function_name_keyword_checked 5 ⟨"NAME", "return", 9, 15⟩ rfl).1 (by decide)

/-- Chains of postfix FunctionCall wrappers: the relation holds between
a base expression and every node obtained from it by repeatedly
wrapping the previous result as the callee of a FunctionCall, which is
exactly left associativity of call suffixes. -/
inductive CallChainOf (base : Node) : Node → Prop where
  | refl : CallChainOf base base
  | call (callee : Node) (args : List Node) (s e : Nat) :
      CallChainOf base callee → CallChainOf base (.FunctionCall callee args s e)


/-- Transitivity of call chains. -/
lemma callChainOf_trans {a b c : Node} (h1 : CallChainOf a b) (h2 : CallChainOf b c) :
    CallChainOf a c := by
  induction h2 with
  | refl => exact h1
  | call callee args s e h ih => exact .call _ _ _ _ ih


/-- Every successful run of the call-suffix loop of parse_expression
turns the already-parsed expression into a left-associative chain of
FunctionCall nodes whose callee is the whole previous result. -/
lemma parseCallSuffixes_chain : ∀ (fuel : Nat) (r : Node) (ts : List Token) (a : Node)
    (rest : List Token), parseCallSuffixes fuel r ts = .ok (a, rest) → CallChainOf r a := by
  intro fuel
  induction fuel with
  | zero =>
      intro r ts a rest h
      rw [parseCallSuffixes] at h
      exact absurd h (by simp)
  | succ fuel ih =>
      intro r ts a rest h
      rw [parseCallSuffixes] at h
      simp only [] at h
      cases hcu : comingUp 1 ts with
      | error e => rw [hcu] at h; simp at h
      | ok p =>
          obtain ⟨nt, ts1⟩ := p
          rw [hcu] at h
          simp only [okBind] at h
          split at h
          · simp only [Except.ok.injEq, Prod.mk.injEq] at h
            rw [← h.1]
            exact .refl
          · cases hcp : checkAndPop "OP" (some "(") ts1 with
            | error e => rw [hcp] at h; simp at h
            | ok p2 =>
                obtain ⟨op, ts2⟩ := p2
                rw [hcp] at h
                simp only [okBind] at h
                cases hcl : parseCommaList (parseExpression fuel) ")" fuel ts2 with
                | error e => rw [hcl] at h; simp at h
                | ok p3 =>
                    obtain ⟨⟨args, lastTok⟩, ts3⟩ := p3
                    rw [hcl] at h
                    simp only [okBind] at h
                    exact callChainOf_trans (.call _ _ _ _ .refl) (ih _ _ _ _ h)


/-- C7: after a primary expression every postfix call suffix produces
a FunctionCall whose callee is the whole previously parsed expression
(so suffix chains are left-associative), and parsing f()() yields the
left-nested FunctionCall(FunctionCall(Name f, []), []). -/
theorem c7_call_chain :
    (∀ (fuel : Nat) (r : Node) (ts : List Token) (a : Node) (rest : List Token),
      parseCallSuffixes fuel r ts = .ok (a, rest) → CallChainOf r a) ∧
    parseExpression 9 [⟨"NAME", "f", 0, 1⟩, ⟨"OP", "(", 1, 2⟩, ⟨"OP", ")", 2, 3⟩,
      ⟨"OP", "(", 3, 4⟩, ⟨"OP", ")", 4, 5⟩, ⟨"OP", ";", 5, 6⟩] =
      .ok (.FunctionCall (.FunctionCall (.Name "f" 0 1) [] 0 3) [] 0 5, [⟨"OP", ";", 5, 6⟩]) :=
  ⟨parseCallSuffixes_chain, rfl⟩


/-- Witness for C7: the chain property applied to the concrete run of
the suffix loop on ()() after the name f. -/
theorem c7_call_chain_witness :
    CallChainOf (.Name "f" 0 1) (.FunctionCall (.FunctionCall (.Name "f" 0 1) [] 0 3) [] 0 5) :=
  c7_call_chain.1 8 (.Name "f" 0 1)
    [⟨"OP", "(", 1, 2⟩, ⟨"OP", ")", 2, 3⟩, ⟨"OP", "(", 3, 4⟩, ⟨"OP", ")", 4, 5⟩, ⟨"OP", ";", 5, 6⟩]
    (.FunctionCall (.FunctionCall (.Name "f" 0 1) [] 0 3) [] 0 5) [⟨"OP", ";", 5, 6⟩] rfl

/-- C10: in a Declaration with an initializer the token after the
variable name is checked only to have OP kind (check_and_pop with no
value); any OP token whose value is not a semicolon is accepted as the
separator and the following expression becomes the initializer, and in
particular Int a , 1 ; parses without error to a Declaration with
value Integer 1.  As in C1, the node end position is the end of that
OP token. -/
theorem c10_declaration_op_value_unchecked :
    (∀ (fuel : Nat) (tyTok varTok opTok semiTok : Token) (exprToks rest : List Token) (e : Node),
      tyTok.kind = "NAME" → tyTok.value ∉ KEYWORDS →
      varTok.kind = "NAME" → varTok.value ∉ KEYWORDS →
      opTok.kind = "OP" → opTok.value ≠ ";" →
      semiTok.kind = "OP" → semiTok.value = ";" →
      parseExpression fuel (exprToks ++ semiTok :: rest) = .ok (e, semiTok :: rest) →
      parseDeclaration fuel (tyTok :: varTok :: opTok :: (exprToks ++ semiTok :: rest)) =
        .ok (.Declaration (.Name tyTok.value tyTok.start tyTok.endPos) varTok.value (some e)
               tyTok.start opTok.endPos, rest)) ∧
    parse [⟨"NAME", "Int", 0, 3⟩, ⟨"NAME", "a", 4, 5⟩, ⟨"OP", ",", 6, 7⟩,
      ⟨"INTEGER", "1", 8, 9⟩, ⟨"OP", ";", 9, 10⟩] =
      .ok [.Declaration (.Name "Int" 0 3) "a" (some (.Integer 1 8 9)) 0 7] := by
  constructor
  · intro fuel tyTok varTok opTok semiTok exprToks rest e hty htyv hvar hvarv hop hopv hsk hsv hexpr
    simp only [KEYWORDS, List.mem_cons, List.not_mem_nil, or_false, not_or] at htyv hvarv
    obtain ⟨hty1, hty2⟩ := htyv
    obtain ⟨hvar1, hvar2⟩ := hvarv
    simp [parseDeclaration, typeAndName, parseName, checkAndPop, comingUp, pop, Token.info,
          KEYWORDS, Node.nameOf, Node.start, hty, hty1, hty2, hvar, hvar1, hvar2, hop, hopv,
          hsk, hsv, hexpr]
  · rfl


/-- Witness for C10: the comma as the separator OP token in a concrete
declaration. -/
theorem c10_declaration_op_value_unchecked_witness :
    parseDeclaration 2 [⟨"NAME", "Int", 0, 3⟩, ⟨"NAME", "a", 4, 5⟩, ⟨"OP", ",", 6, 7⟩,
      ⟨"INTEGER", "1", 8, 9⟩, ⟨"OP", ";", 9, 10⟩] =
      .ok (.Declaration (.Name "Int" 0 3) "a" (some (.Integer 1 8 9)) 0 7, []) :=
  c10_declaration_op_value_unchecked.1 2 ⟨"NAME", "Int", 0, 3⟩ ⟨"NAME", "a", 4, 5⟩
    ⟨"OP", ",", 6, 7⟩ ⟨"OP", ";", 9, 10⟩ [⟨"INTEGER", "1", 8, 9⟩] [] (.Integer 1 8 9)
    rfl (by decide) rfl (by decide) rfl (by decide) rfl rfl rfl

/-- The condition of the call-suffix loop: the peeked token is the
operator open parenthesis. -/
def isLParen (t : Token) : Prop := t.kind = "OP" ∧ t.value = "("

instance (t : Token) : Decidable (isLParen t) := by
  unfold isLParen; infer_instance

/-- A parser that on success has consumed a nonempty prefix of its
input. -/
def ConsumesNonempty (p : P α) : Prop :=
  ∀ ts a rest, p ts = .ok (a, rest) → ∃ pre, pre ≠ [] ∧ ts = pre ++ rest

/-- A parser whose success depends only on the tokens it consumed and
on the one token it peeks at afterwards, and of that token only on
whether it opens a call suffix: the remaining input beyond the
consumed prefix can be replaced by any other list whose head does not
open a call.  This is the locality property of parse_expression, whose
trailing peek is the only way any parser of the expression family
looks beyond what it consumes. -/
def PeekStable (p : P α) : Prop :=
  ∀ pre t post a, p (pre ++ t :: post) = .ok (a, t :: post) →
    ∀ t' post', ¬ isLParen t' → p (pre ++ t' :: post') = .ok (a, t' :: post')

lemma comingUp_one_cons (t : Token) (w : List Token) :
    comingUp 1 (t :: w) = .ok (t, t :: w) := by
  simp [comingUp]

lemma comingUp_one_nil : comingUp 1 ([] : List Token) = .error .unexpectedEndOfInput := by
  simp [comingUp]

lemma checkAndPop_nil (kind : String) (v : Option String) :
    checkAndPop kind v [] = .error .unexpectedEndOfInput := rfl

lemma checkAndPop_cons (kind : String) (v : Option String) (t : Token) (w : List Token) :
    checkAndPop kind v (t :: w) =
      if t.kind = kind then
        match v with
        | none => .ok (t, w)
        | some s => if t.value = s then .ok (t, w) else .error (.unexpectedToken kind v t)
      else .error (.unexpectedToken kind v t) := by
  rw [checkAndPop]
  simp only [comingUp_one_cons, okBind]
  by_cases hk : t.kind = kind
  · simp only [hk, if_true]
    cases v with
    | none => rfl
    | some s =>
        by_cases hv : t.value = s
        · simp [hv, pop]
        · simp [hv]
  · simp [hk]

lemma parseName_nil (b : Bool) : parseName b [] = .error .unexpectedEndOfInput := rfl

lemma parseName_cons (b : Bool) (t : Token) (w : List Token) :
    parseName b (t :: w) =
      if t.kind = "NAME" then
        if b then
          if t.value ∈ KEYWORDS then .error (.reservedKeywordUsed t.value)
          else .ok (.Name t.value t.start t.endPos, w)
        else .ok (.Name t.value t.start t.endPos, w)
      else .error (.unexpectedToken "NAME" none t) := by
  rw [parseName, checkAndPop_cons]
  by_cases hk : t.kind = "NAME"
  · simp only [hk, if_true, okBind]
  · simp [hk]

lemma parseInteger_nil : parseInteger [] = .error .unexpectedEndOfInput := rfl

lemma parseInteger_cons (t : Token) (w : List Token) :
    parseInteger (t :: w) =
      if t.kind = "INTEGER" then
        match pyInt t.value with
        | some n => .ok (.Integer n t.start t.endPos, w)
        | none => .error (.invalidToken t)
      else .error (.unexpectedToken "INTEGER" none t) := by
  rw [parseInteger, checkAndPop_cons]
  by_cases hk : t.kind = "INTEGER"
  · simp only [hk, if_true, okBind]
  · simp [hk]

lemma parseString_nil : parseString [] = .error .unexpectedEndOfInput := rfl

lemma parseString_cons (t : Token) (w : List Token) :
    parseString (t :: w) =
      if t.kind = "STRING" then
        .ok (.String ((t.value.drop 1).dropRight 1) t.start t.endPos, w)
      else .error (.unexpectedToken "STRING" none t) := by
  rw [parseString, checkAndPop_cons]
  by_cases hk : t.kind = "STRING"
  · simp only [hk, if_true, okBind]
  · simp [hk]

/-- Right cancellation of list append, with the common suffix passed
explicitly. -/
lemma appendCancel {α : Type} (s₁ s₂ t : List α) (h : s₁ ++ t = s₂ ++ t) : s₁ = s₂ :=
  List.append_inj_left' h rfl

/-- Injectivity helper for results of comma-list parsers. -/
lemma okPairEq {α β γ : Type} {a1 a2 : α} {b1 b2 : β} {c1 c2 : γ}
    (h : (Except.ok ((a1, b1), c1) : Except Err ((α × β) × γ)) = .ok ((a2, b2), c2)) :
    a1 = a2 ∧ b1 = b2 ∧ c1 = c2 := by
  injection h with h'
  injection h' with h1 h2
  injection h1 with h3 h4
  exact ⟨h3, h4, h2⟩

lemma parseCommaListLoop_split {α : Type} {pm : P α} (hpm : ConsumesNonempty pm)
    (stop : String) : ∀ (fuel : Nat) (ts : List Token) (es : List α) (last : Token)
    (rest : List Token),
    parseCommaListLoop pm stop fuel ts = .ok ((es, last), rest) →
    (∃ p, p ≠ [] ∧ ts = p ++ last :: rest) ∧ last.info = ("OP", stop) ∧ es ≠ [] := by
  intro fuel
  induction fuel with
  | zero =>
      intro ts es last rest h
      rw [parseCommaListLoop] at h
      exact absurd h (by simp)
  | succ fuel ih =>
      intro ts es last rest h
      rw [parseCommaListLoop] at h
      simp only [] at h
      cases hpm1 : pm ts with
      | error e => rw [hpm1] at h; simp at h
      | ok p =>
          obtain ⟨e1, u1⟩ := p
          rw [hpm1] at h
          simp only [okBind] at h
          obtain ⟨c, hc, hcu⟩ := hpm ts e1 u1 hpm1
          cases u1 with
          | nil => rw [comingUp_one_nil] at h; simp at h
          | cons t1 u2 =>
              rw [comingUp_one_cons] at h
              simp only [okBind] at h
              split at h
              · rename_i hstop1
                simp only [pop] at h
                obtain ⟨hes, hlast, hrest⟩ := okPairEq h
                subst hes; subst hlast; subst hrest
                exact ⟨⟨c, hc, by rw [hcu]⟩, hstop1, by simp⟩
              · rw [checkAndPop_cons] at h
                simp only [] at h
                split at h
                · rename_i hk
                  split at h
                  · rename_i hv
                    simp only [okBind] at h
                    cases u2 with
                    | nil => rw [comingUp_one_nil] at h; simp at h
                    | cons t2 u3 =>
                        rw [comingUp_one_cons] at h
                        simp only [okBind] at h
                        split at h
                        · rename_i hstop2
                          simp only [pop] at h
                          obtain ⟨hes, hlast, hrest⟩ := okPairEq h
                          subst hes; subst hlast; subst hrest
                          exact ⟨⟨c ++ [t1], by simp, by rw [hcu]; simp⟩, hstop2, by simp⟩
                        · cases hrec : parseCommaListLoop pm stop fuel (t2 :: u3) with
                          | error e => rw [hrec] at h; simp at h
                          | ok q =>
                              obtain ⟨⟨es2, last2⟩, rest2⟩ := q
                              rw [hrec] at h
                              simp only [okBind] at h
                              obtain ⟨hes, hlast, hrest⟩ := okPairEq h
                              subst hes; subst hlast; subst hrest
                              obtain ⟨⟨p2, hp2, hp2e⟩, hinfo, -⟩ :=
                                ih (t2 :: u3) es2 last2 rest2 hrec
                              refine ⟨⟨c ++ t1 :: p2, by simp, ?_⟩, hinfo, by simp⟩
                              rw [hcu, hp2e]
                              simp
                  · exact absurd h (by simp)
                · exact absurd h (by simp)

lemma parseCommaList_split {α : Type} {pm : P α} (hpm : ConsumesNonempty pm) (stop : String)
    (fuel : Nat) (ts : List Token) (es : List α) (last : Token) (rest : List Token)
    (h : parseCommaList pm stop fuel ts = .ok ((es, last), rest)) :
    (∃ p, ts = p ++ last :: rest) ∧ last.info = ("OP", stop) := by
  rw [parseCommaList] at h
  simp only [] at h
  cases ts with
  | nil => rw [comingUp_one_nil] at h; simp at h
  | cons t1 u1 =>
      rw [comingUp_one_cons] at h
      simp only [okBind] at h
      split at h
      · rename_i hstop
        simp only [pop] at h
        obtain ⟨hes, hlast, hrest⟩ := okPairEq h
        subst hlast; subst hrest
        exact ⟨⟨[], rfl⟩, hstop⟩
      · obtain ⟨⟨p, hp, hpe⟩, hinfo, -⟩ :=
          parseCommaListLoop_split hpm stop fuel _ es last rest h
        exact ⟨⟨p, hpe⟩, hinfo⟩

lemma parseCommaListLoop_exactTail {α : Type} {pm : P α} (hpm : ConsumesNonempty pm)
    (hps : PeekStable pm) {stop : String} (hstop : stop ≠ "(") :
    ∀ (fuel : Nat) (w v v' : List Token) (es : List α) (last : Token),
    parseCommaListLoop pm stop fuel (w ++ v) = .ok ((es, last), v) →
    parseCommaListLoop pm stop fuel (w ++ v') = .ok ((es, last), v') := by
  intro fuel
  induction fuel with
  | zero =>
      intro w v v' es last h
      rw [parseCommaListLoop] at h
      exact absurd h (by simp)
  | succ fuel ih =>
      intro w v v' es last h
      rw [parseCommaListLoop] at h
      simp only [] at h
      cases hpm1 : pm (w ++ v) with
      | error e => rw [hpm1] at h; simp at h
      | ok p =>
          obtain ⟨e1, u1⟩ := p
          rw [hpm1] at h
          simp only [okBind] at h
          obtain ⟨c, hc, hcu⟩ := hpm (w ++ v) e1 u1 hpm1
          cases u1 with
          | nil => rw [comingUp_one_nil] at h; simp at h
          | cons t1 u2 =>
              rw [comingUp_one_cons] at h
              simp only [okBind] at h
              split at h
              · rename_i hstop1
                simp only [pop] at h
                obtain ⟨hes, hlast, hrest⟩ := okPairEq h
                subst hes; subst hlast; subst hrest
                have hw : w = c ++ [t1] := by
                  refine appendCancel _ _ u2 ?_
                  rw [hcu]; simp
                rw [Token.info, Prod.mk.injEq] at hstop1
                obtain ⟨hk1, hv1⟩ := hstop1
                have hnl : ¬ isLParen t1 := by
                  rintro ⟨-, hl⟩
                  rw [hv1] at hl
                  exact hstop hl
                have hpm1' : pm (c ++ t1 :: u2) = .ok (e1, t1 :: u2) := by
                  rw [← hcu]; exact hpm1
                have htrans := hps c t1 u2 e1 hpm1' t1 v' hnl
                have hwv' : w ++ v' = c ++ t1 :: v' := by rw [hw]; simp
                rw [parseCommaListLoop]
                simp only []
                rw [hwv', htrans]
                simp only [okBind, comingUp_one_cons]
                have hinfo : t1.info = ("OP", stop) := by rw [Token.info, hk1, hv1]
                rw [if_pos hinfo]
                simp [pop]
              · rename_i hstop1f
                rw [checkAndPop_cons] at h
                simp only [] at h
                split at h
                · rename_i hk
                  split at h
                  · rename_i hv
                    simp only [okBind] at h
                    have hnl1 : ¬ isLParen t1 := by
                      rintro ⟨-, hl⟩
                      rw [hv] at hl
                      exact absurd hl (by decide)
                    cases u2 with
                    | nil => rw [comingUp_one_nil] at h; simp at h
                    | cons t2 u3 =>
                        rw [comingUp_one_cons] at h
                        simp only [okBind] at h
                        split at h
                        · rename_i hstop2
                          simp only [pop] at h
                          obtain ⟨hes, hlast, hrest⟩ := okPairEq h
                          subst hes; subst hlast; subst hrest
                          have hw : w = c ++ [t1, t2] := by
                            refine appendCancel _ _ u3 ?_
                            rw [hcu]; simp
                          have hpm1' : pm (c ++ t1 :: t2 :: u3) = .ok (e1, t1 :: t2 :: u3) := by
                            rw [← hcu]; exact hpm1
                          have htrans := hps c t1 (t2 :: u3) e1 hpm1' t1 (t2 :: v') hnl1
                          have hwv' : w ++ v' = c ++ t1 :: t2 :: v' := by rw [hw]; simp
                          rw [parseCommaListLoop]
                          simp only []
                          rw [hwv', htrans]
                          simp only [okBind, comingUp_one_cons]
                          rw [if_neg hstop1f, checkAndPop_cons]
                          simp only [hk, hv, if_true, okBind, comingUp_one_cons]
                          rw [if_pos hstop2]
                          simp [pop]
                        · rename_i hstop2f
                          cases hrec : parseCommaListLoop pm stop fuel (t2 :: u3) with
                          | error e => rw [hrec] at h; simp at h
                          | ok q =>
                              obtain ⟨⟨es2, last2⟩, rest2⟩ := q
                              rw [hrec] at h
                              simp only [okBind] at h
                              obtain ⟨hes, hlast, hrest⟩ := okPairEq h
                              subst hes; subst hlast; subst hrest
                              obtain ⟨⟨p2, hp2ne, hp2e⟩, hinfo2, -⟩ :=
                                parseCommaListLoop_split hpm stop fuel _ es2 last2 rest2 hrec
                              have hsplit2 : t2 :: u3 = (p2 ++ [last2]) ++ rest2 := by
                                rw [hp2e]; simp
                              have hw : w = c ++ t1 :: (p2 ++ [last2]) := by
                                refine appendCancel _ _ rest2 ?_
                                rw [hcu, hsplit2]; simp
                              have hrec2 : parseCommaListLoop pm stop fuel
                                  ((p2 ++ [last2]) ++ rest2) = .ok ((es2, last2), rest2) := by
                                rw [← hsplit2]; exact hrec
                              have ihc := ih (p2 ++ [last2]) rest2 v' es2 last2 hrec2
                              rw [hsplit2] at hcu hpm1
                              rw [hcu] at hpm1
                              have htrans := hps c t1 ((p2 ++ [last2]) ++ rest2) e1 hpm1
                                t1 ((p2 ++ [last2]) ++ v') hnl1
                              have hwv2 : w ++ v' = c ++ t1 :: ((p2 ++ [last2]) ++ v') := by
                                rw [hw]; simp
                              obtain ⟨p3, hp3⟩ : ∃ p3, p2 = t2 :: p3 := by
                                cases p2 with
                                | nil => exact absurd rfl hp2ne
                                | cons q0 p3 =>
                                    simp only [List.cons_append] at hp2e
                                    injection hp2e with h1 h2
                                    exact ⟨p3, by rw [h1]⟩
                              have hX : (p2 ++ [last2]) ++ v' =
                                  t2 :: ((p3 ++ [last2]) ++ v') := by
                                rw [hp3]; simp
                              rw [parseCommaListLoop]
                              simp only []
                              rw [hwv2, htrans]
                              simp only [okBind, comingUp_one_cons]
                              rw [if_neg hstop1f, checkAndPop_cons]
                              simp only [hk, hv, if_true, okBind]
                              rw [hX, comingUp_one_cons]
                              simp only [okBind]
                              rw [if_neg hstop2f, ← hX, ihc]
                              simp only [okBind]
                  · exact absurd h (by simp)
                · exact absurd h (by simp)

/-- Injectivity helper for ok results carrying a pair. -/
lemma okEq {α β : Type} {a1 a2 : α} {b1 b2 : β}
    (h : (Except.ok (a1, b1) : Except Err (α × β)) = .ok (a2, b2)) : a1 = a2 ∧ b1 = b2 := by
  injection h with h'
  injection h' with h1 h2
  exact ⟨h1, h2⟩

lemma checkAndPop_transfer {kind : String} {v : Option String} {t : Token} {w : List Token}
    {tok : Token} {rest : List Token} (h : checkAndPop kind v (t :: w) = .ok (tok, rest)) :
    tok = t ∧ rest = w ∧ ∀ w', checkAndPop kind v (t :: w') = .ok (t, w') := by
  rw [checkAndPop_cons] at h
  split at h
  · rename_i hk
    cases v with
    | none =>
        obtain ⟨h1, h2⟩ := okEq h
        exact ⟨h1.symm, h2.symm, fun w' => by rw [checkAndPop_cons]; simp [hk]⟩
    | some s =>
        simp only [] at h
        split at h
        · rename_i hv
          obtain ⟨h1, h2⟩ := okEq h
          exact ⟨h1.symm, h2.symm, fun w' => by rw [checkAndPop_cons]; simp [hk, hv]⟩
        · exact absurd h (by simp)
  · exact absurd h (by simp)

lemma parseName_transfer {b : Bool} {t : Token} {w : List Token} {n : Node}
    {rest : List Token} (h : parseName b (t :: w) = .ok (n, rest)) :
    rest = w ∧ ∀ w', parseName b (t :: w') = .ok (n, w') := by
  rw [parseName_cons] at h
  split at h
  · rename_i hk
    split at h
    · split at h
      · exact absurd h (by simp)
      · rename_i hb hkw
        obtain ⟨h1, h2⟩ := okEq h
        exact ⟨h2.symm, fun w' => by rw [parseName_cons]; simp [hk, hb, hkw, h1]⟩
    · rename_i hb
      obtain ⟨h1, h2⟩ := okEq h
      refine ⟨h2.symm, fun w' => ?_⟩
      rw [parseName_cons]
      simp only [Bool.not_eq_true] at hb
      simp [hk, hb, h1]
  · exact absurd h (by simp)

lemma parseInteger_transfer {t : Token} {w : List Token} {n : Node}
    {rest : List Token} (h : parseInteger (t :: w) = .ok (n, rest)) :
    rest = w ∧ ∀ w', parseInteger (t :: w') = .ok (n, w') := by
  rw [parseInteger_cons] at h
  split at h
  · rename_i hk
    split at h
    · rename_i n' hpy
      obtain ⟨h1, h2⟩ := okEq h
      exact ⟨h2.symm, fun w' => by rw [parseInteger_cons]; simp [hk]; rw [hpy]; simp [h1]⟩
    · exact absurd h (by simp)
  · exact absurd h (by simp)

lemma parseString_transfer {t : Token} {w : List Token} {n : Node}
    {rest : List Token} (h : parseString (t :: w) = .ok (n, rest)) :
    rest = w ∧ ∀ w', parseString (t :: w') = .ok (n, w') := by
  rw [parseString_cons] at h
  split at h
  · rename_i hk
    obtain ⟨h1, h2⟩ := okEq h
    exact ⟨h2.symm, fun w' => by rw [parseString_cons]; simp [hk, h1]⟩
  · exact absurd h (by simp)

lemma parseCommaList_exactTail {α : Type} {pm : P α} (hpm : ConsumesNonempty pm)
    (hps : PeekStable pm) {stop : String} (hstop : stop ≠ "(")
    (fuel : Nat) (w v v' : List Token) (es : List α) (last : Token)
    (h : parseCommaList pm stop fuel (w ++ v) = .ok ((es, last), v)) :
    parseCommaList pm stop fuel (w ++ v') = .ok ((es, last), v') := by
  cases w with
  | nil =>
      exfalso
      rw [parseCommaList] at h
      simp only [List.nil_append] at h
      cases v with
      | nil => rw [comingUp_one_nil] at h; simp at h
      | cons a u =>
          rw [comingUp_one_cons] at h
          simp only [okBind] at h
          split at h
          · simp only [pop] at h
            obtain ⟨hes, hlast, hrest⟩ := okPairEq h
            have := congrArg List.length hrest
            simp at this
          · obtain ⟨⟨p, hpne, hpe⟩, -, -⟩ :=
              parseCommaListLoop_split hpm stop fuel _ es last (a :: u) h
            have := congrArg List.length hpe
            simp at this
            cases p with
            | nil => exact absurd rfl hpne
            | cons q qs => simp at this; omega
  | cons a w1 =>
      rw [parseCommaList] at h ⊢
      simp only [List.cons_append] at h ⊢
      rw [comingUp_one_cons] at h ⊢
      simp only [okBind] at h ⊢
      split at h
      · rename_i hstopa
        rw [if_pos hstopa]
        simp only [pop] at h
        obtain ⟨hes, hlast, hrest⟩ := okPairEq h
        have hw1 : w1 = [] := by
          have h4 := congrArg List.length hrest
          simpa using h4
        subst hw1
        subst hes; subst hlast
        simp [pop]
      · rename_i hstopa
        rw [if_neg hstopa]
        have h2 : parseCommaListLoop pm stop fuel ((a :: w1) ++ v) = .ok ((es, last), v) := by
          simpa using h
        have h3 := parseCommaListLoop_exactTail hpm hps hstop fuel (a :: w1) v v' es last h2
        simpa using h3

lemma expr_consumption : ∀ fuel : Nat,
    (∀ ts a rest, parseExpression fuel ts = .ok (a, rest) → ∃ pre, pre ≠ [] ∧ ts = pre ++ rest) ∧
    (∀ r ts a rest, parseCallSuffixes fuel r ts = .ok (a, rest) → ∃ pre, ts = pre ++ rest) := by
  intro fuel
  induction fuel with
  | zero =>
      constructor
      · intro ts a rest h
        rw [parseExpression] at h
        exact absurd h (by simp)
      · intro r ts a rest h
        rw [parseCallSuffixes] at h
        exact absurd h (by simp)
  | succ fuel ih =>
      constructor
      · intro ts a rest h
        rw [parseExpression] at h
        simp only [] at h
        cases ts with
        | nil => rw [comingUp_one_nil] at h; simp at h
        | cons t u =>
            rw [comingUp_one_cons] at h
            simp only [okBind] at h
            split at h
            · cases hpn : parseName true (t :: u) with
              | error e => rw [hpn] at h; simp at h
              | ok p =>
                  obtain ⟨n, u1⟩ := p
                  obtain ⟨rfl, -⟩ := parseName_transfer hpn
                  rw [hpn] at h
                  simp only [okBind] at h
                  obtain ⟨p2, hp2⟩ := ih.2 n _ a rest h
                  exact ⟨t :: p2, by simp, by rw [hp2]; simp⟩
            · split at h
              · cases hps0 : parseString (t :: u) with
                | error e => rw [hps0] at h; simp at h
                | ok p =>
                    obtain ⟨n, u1⟩ := p
                    obtain ⟨rfl, -⟩ := parseString_transfer hps0
                    rw [hps0] at h
                    simp only [okBind] at h
                    obtain ⟨p2, hp2⟩ := ih.2 n _ a rest h
                    exact ⟨t :: p2, by simp, by rw [hp2]; simp⟩
              · split at h
                · cases hpi : parseInteger (t :: u) with
                  | error e => rw [hpi] at h; simp at h
                  | ok p =>
                      obtain ⟨n, u1⟩ := p
                      obtain ⟨rfl, -⟩ := parseInteger_transfer hpi
                      rw [hpi] at h
                      simp only [okBind] at h
                      obtain ⟨p2, hp2⟩ := ih.2 n _ a rest h
                      exact ⟨t :: p2, by simp, by rw [hp2]; simp⟩
                · simp at h
      · intro r ts a rest h
        rw [parseCallSuffixes] at h
        simp only [] at h
        cases ts with
        | nil => rw [comingUp_one_nil] at h; simp at h
        | cons t u =>
            rw [comingUp_one_cons] at h
            simp only [okBind] at h
            split at h
            · obtain ⟨-, hrest⟩ := okEq h
              exact ⟨[], by rw [List.nil_append]; exact hrest⟩
            · cases hcap : checkAndPop "OP" (some "(") (t :: u) with
              | error e => rw [hcap] at h; simp at h
              | ok p =>
                  obtain ⟨tok, u1⟩ := p
                  obtain ⟨-, rfl, -⟩ := checkAndPop_transfer hcap
                  rw [hcap] at h
                  simp only [okBind] at h
                  cases hcl : parseCommaList (parseExpression fuel) ")" fuel u1 with
                  | error e => rw [hcl] at h; simp at h
                  | ok q =>
                      obtain ⟨⟨args, lastTok⟩, u2⟩ := q
                      rw [hcl] at h
                      simp only [okBind] at h
                      obtain ⟨⟨p1, hp1⟩, -⟩ := parseCommaList_split ih.1 ")" fuel _ args lastTok u2 hcl
                      obtain ⟨p2, hp2⟩ := ih.2 _ u2 a rest h
                      refine ⟨t :: (p1 ++ lastTok :: p2), ?_⟩
                      rw [hp1, hp2]
                      simp

lemma expr_stable : ∀ fuel : Nat,
    PeekStable (parseExpression fuel) ∧ (∀ r : Node, PeekStable (parseCallSuffixes fuel r)) := by
  intro fuel
  induction fuel with
  | zero =>
      constructor
      · intro pre t post a h
        rw [parseExpression] at h
        exact absurd h (by simp)
      · intro r pre t post a h
        rw [parseCallSuffixes] at h
        exact absurd h (by simp)
  | succ fuel ih =>
      constructor
      · intro pre t post a h t' post' hnl
        cases pre with
        | nil =>
            exfalso
            simp only [List.nil_append] at h
            rw [parseExpression] at h
            simp only [] at h
            rw [comingUp_one_cons] at h
            simp only [okBind] at h
            split at h
            · cases hpn : parseName true (t :: post) with
              | error e => rw [hpn] at h; simp at h
              | ok p =>
                  obtain ⟨n, u1⟩ := p
                  obtain ⟨rfl, -⟩ := parseName_transfer hpn
                  rw [hpn] at h
                  simp only [okBind] at h
                  obtain ⟨p2, hp2⟩ := (expr_consumption fuel).2 n _ a _ h
                  have := congrArg List.length hp2
                  simp at this
                  omega
            · split at h
              · cases hps0 : parseString (t :: post) with
                | error e => rw [hps0] at h; simp at h
                | ok p =>
                    obtain ⟨n, u1⟩ := p
                    obtain ⟨rfl, -⟩ := parseString_transfer hps0
                    rw [hps0] at h
                    simp only [okBind] at h
                    obtain ⟨p2, hp2⟩ := (expr_consumption fuel).2 n _ a _ h
                    have := congrArg List.length hp2
                    simp at this
                    omega
              · split at h
                · cases hpi : parseInteger (t :: post) with
                  | error e => rw [hpi] at h; simp at h
                  | ok p =>
                      obtain ⟨n, u1⟩ := p
                      obtain ⟨rfl, -⟩ := parseInteger_transfer hpi
                      rw [hpi] at h
                      simp only [okBind] at h
                      obtain ⟨p2, hp2⟩ := (expr_consumption fuel).2 n _ a _ h
                      have := congrArg List.length hp2
                      simp at this
                      omega
                · simp at h
        | cons c pre1 =>
            simp only [List.cons_append] at h ⊢
            rw [parseExpression] at h ⊢
            simp only [] at h ⊢
            rw [comingUp_one_cons] at h ⊢
            simp only [okBind] at h ⊢
            split at h
            · rename_i hk1
              rw [if_pos hk1]
              cases hpn : parseName true (c :: (pre1 ++ t :: post)) with
              | error e => rw [hpn] at h; simp at h
              | ok p =>
                  obtain ⟨n, u1⟩ := p
                  obtain ⟨rfl, htr⟩ := parseName_transfer hpn
                  rw [hpn] at h
                  simp only [okBind] at h
                  rw [htr (pre1 ++ t' :: post')]
                  simp only [okBind]
                  exact (ih.2 n) pre1 t post a h t' post' hnl
            · rename_i hk1
              rw [if_neg hk1]
              split at h
              · rename_i hk2
                rw [if_pos hk2]
                cases hps0 : parseString (c :: (pre1 ++ t :: post)) with
                | error e => rw [hps0] at h; simp at h
                | ok p =>
                    obtain ⟨n, u1⟩ := p
                    obtain ⟨rfl, htr⟩ := parseString_transfer hps0
                    rw [hps0] at h
                    simp only [okBind] at h
                    rw [htr (pre1 ++ t' :: post')]
                    simp only [okBind]
                    exact (ih.2 n) pre1 t post a h t' post' hnl
              · rename_i hk2
                rw [if_neg hk2]
                split at h
                · rename_i hk3
                  rw [if_pos hk3]
                  cases hpi : parseInteger (c :: (pre1 ++ t :: post)) with
                  | error e => rw [hpi] at h; simp at h
                  | ok p =>
                      obtain ⟨n, u1⟩ := p
                      obtain ⟨rfl, htr⟩ := parseInteger_transfer hpi
                      rw [hpi] at h
                      simp only [okBind] at h
                      rw [htr (pre1 ++ t' :: post')]
                      simp only [okBind]
                      exact (ih.2 n) pre1 t post a h t' post' hnl
                · simp at h
      · intro r pre t post a h t' post' hnl
        cases pre with
        | nil =>
            simp only [List.nil_append] at h ⊢
            rw [parseCallSuffixes] at h ⊢
            simp only [] at h ⊢
            rw [comingUp_one_cons] at h ⊢
            simp only [okBind] at h ⊢
            split at h
            · obtain ⟨ha, -⟩ := okEq h
              have hcond : t'.kind ≠ "OP" ∨ t'.value ≠ "(" := by
                rw [isLParen] at hnl
                tauto
              rw [if_pos hcond, ha]
            · rename_i hcond
              exfalso
              cases hcap : checkAndPop "OP" (some "(") (t :: post) with
              | error e => rw [hcap] at h; simp at h
              | ok p =>
                  obtain ⟨tok, u1⟩ := p
                  obtain ⟨-, rfl, -⟩ := checkAndPop_transfer hcap
                  rw [hcap] at h
                  simp only [okBind] at h
                  cases hcl : parseCommaList (parseExpression fuel) ")" fuel u1 with
                  | error e => rw [hcl] at h; simp at h
                  | ok q =>
                      obtain ⟨⟨args, lastTok⟩, u2⟩ := q
                      rw [hcl] at h
                      simp only [okBind] at h
                      obtain ⟨⟨p1, hp1⟩, -⟩ :=
                        parseCommaList_split (expr_consumption fuel).1 ")" fuel _ args lastTok u2 hcl
                      obtain ⟨p2, hp2⟩ := (expr_consumption fuel).2 _ u2 a _ h
                      have hlen1 := congrArg List.length hp1
                      have hlen2 := congrArg List.length hp2
                      simp at hlen1 hlen2
                      omega
        | cons c pre1 =>
            simp only [List.cons_append] at h ⊢
            rw [parseCallSuffixes] at h ⊢
            simp only [] at h ⊢
            rw [comingUp_one_cons] at h ⊢
            simp only [okBind] at h ⊢
            split at h
            · obtain ⟨-, hrest⟩ := okEq h
              exfalso
              have := congrArg List.length hrest
              simp at this
              omega
            · rename_i hcond
              rw [if_neg hcond]
              cases hcap : checkAndPop "OP" (some "(") (c :: (pre1 ++ t :: post)) with
              | error e => rw [hcap] at h; simp at h
              | ok p =>
                  obtain ⟨tok, u1⟩ := p
                  obtain ⟨-, rfl, htr⟩ := checkAndPop_transfer hcap
                  rw [hcap] at h
                  simp only [okBind] at h
                  cases hcl : parseCommaList (parseExpression fuel) ")" fuel (pre1 ++ t :: post) with
                  | error e => rw [hcl] at h; simp at h
                  | ok q =>
                      obtain ⟨⟨args, lastTok⟩, u2⟩ := q
                      rw [hcl] at h
                      simp only [okBind] at h
                      obtain ⟨p2, hp2⟩ := (expr_consumption fuel).2 _ u2 a (t :: post) h
                      obtain ⟨⟨p1, hp1⟩, -⟩ :=
                        parseCommaList_split (expr_consumption fuel).1 ")" fuel _ args lastTok u2 hcl
                      have hpre1 : pre1 = (p1 ++ [lastTok]) ++ p2 := by
                        refine appendCancel _ _ (t :: post) ?_
                        rw [hp1, hp2]
                        simp
                      have hcl2 : parseCommaList (parseExpression fuel) ")" fuel
                          ((p1 ++ [lastTok]) ++ (p2 ++ t :: post)) =
                          .ok ((args, lastTok), p2 ++ t :: post) := by
                        rw [← hp2]
                        rw [show (p1 ++ [lastTok]) ++ u2 = p1 ++ lastTok :: u2 from by simp]
                        rw [← hp1]
                        exact hcl
                      have hfin := parseCommaList_exactTail (expr_consumption fuel).1 ih.1
                        (by decide) fuel (p1 ++ [lastTok]) (p2 ++ t :: post) (p2 ++ t' :: post')
                        args lastTok hcl2
                      have hh : parseCallSuffixes fuel
                          (.FunctionCall r args r.start lastTok.endPos) (p2 ++ t :: post) =
                          .ok (a, t :: post) := by
                        rw [← hp2]
                        exact h
                      have hh2 := (ih.2 _) p2 t post a hh t' post' hnl
                      rw [htr (pre1 ++ t' :: post')]
                      simp only [okBind]
                      rw [show pre1 ++ t' :: post' = (p1 ++ [lastTok]) ++ (p2 ++ t' :: post')
                        from by rw [hpre1]; simp]
                      rw [hfin]
                      simp only [okBind]
                      exact hh2

lemma parseCommaListLoop_trailing {α : Type} {pm : P α} (hpm : ConsumesNonempty pm)
    (hps : PeekStable pm) {stop : String} (hstop2 : stop ≠ ",")
    {commaTok : Token} (hct : commaTok.info = ("OP", ",")) :
    ∀ (fuel : Nat) (front rest : List Token) (stopTok : Token) (es : List α),
    (∀ u, front.getLast? = some u → u.info ≠ ("OP", ",")) →
    parseCommaListLoop pm stop fuel (front ++ stopTok :: rest) = .ok ((es, stopTok), rest) →
    parseCommaListLoop pm stop fuel (front ++ commaTok :: stopTok :: rest) =
      .ok ((es, stopTok), rest) := by
  have hctp := hct
  rw [Token.info, Prod.mk.injEq] at hctp
  obtain ⟨hctk, hctv⟩ := hctp
  have hnlc : ¬ isLParen commaTok := by
    rintro ⟨-, hl⟩
    rw [hctv] at hl
    exact absurd hl (by decide)
  have hnec : ¬ commaTok.info = ("OP", stop) := by
    rw [hct]
    intro hcontra
    rw [Prod.mk.injEq] at hcontra
    exact hstop2 hcontra.2.symm
  intro fuel
  induction fuel with
  | zero =>
      intro front rest stopTok es hlast h
      rw [parseCommaListLoop] at h
      exact absurd h (by simp)
  | succ fuel ih =>
      intro front rest stopTok es hlast h
      rw [parseCommaListLoop] at h
      simp only [] at h
      cases hpm1 : pm (front ++ stopTok :: rest) with
      | error e => rw [hpm1] at h; simp at h
      | ok p =>
          obtain ⟨e1, u1⟩ := p
          rw [hpm1] at h
          simp only [okBind] at h
          obtain ⟨c, hc, hcu⟩ := hpm _ e1 u1 hpm1
          cases u1 with
          | nil => rw [comingUp_one_nil] at h; simp at h
          | cons t1 u2 =>
              rw [comingUp_one_cons] at h
              simp only [okBind] at h
              split at h
              · rename_i hs1
                simp only [pop] at h
                obtain ⟨hes, hlast2, hrest⟩ := okPairEq h
                subst hes; subst hlast2; subst hrest
                have htrans := hps front t1 u2 e1 hpm1 commaTok (t1 :: u2) hnlc
                rw [parseCommaListLoop]
                simp only []
                rw [htrans]
                simp only [okBind, comingUp_one_cons]
                rw [if_neg hnec, checkAndPop_cons]
                simp only [hctk, hctv, if_true, okBind, comingUp_one_cons]
                rw [if_pos hs1]
                simp [pop]
              · rename_i hs1f
                rw [checkAndPop_cons] at h
                simp only [] at h
                split at h
                · rename_i hk1
                  split at h
                  · rename_i hv1
                    have hnl1 : ¬ isLParen t1 := by
                      rintro ⟨-, hl⟩
                      rw [hv1] at hl
                      exact absurd hl (by decide)
                    simp only [okBind] at h
                    cases u2 with
                    | nil => rw [comingUp_one_nil] at h; simp at h
                    | cons t2 u3 =>
                        rw [comingUp_one_cons] at h
                        simp only [okBind] at h
                        split at h
                        · rename_i hs2
                          exfalso
                          simp only [pop] at h
                          obtain ⟨hes, hlast2, hrest⟩ := okPairEq h
                          subst hes; subst hlast2; subst hrest
                          have hfc : front = c ++ [t1] := by
                            refine appendCancel _ _ (t2 :: u3) ?_
                            rw [hcu]; simp
                          have hgl : front.getLast? = some t1 := by
                            rw [hfc]
                            exact List.getLast?_concat _
                          exact hlast t1 hgl (by rw [Token.info, hk1, hv1])
                        · rename_i hs2f
                          cases hrec : parseCommaListLoop pm stop fuel (t2 :: u3) with
                          | error e => rw [hrec] at h; simp at h
                          | ok q =>
                              obtain ⟨⟨es2, last2⟩, rest2⟩ := q
                              rw [hrec] at h
                              simp only [okBind] at h
                              obtain ⟨hes, hlast2, hrest⟩ := okPairEq h
                              subst hes; subst hlast2; subst hrest
                              obtain ⟨⟨p2, hp2ne, hp2e⟩, hinfo2, -⟩ :=
                                parseCommaListLoop_split hpm stop fuel _ es2 last2 rest2 hrec
                              have hfc : front = c ++ t1 :: p2 := by
                                refine appendCancel _ _ (last2 :: rest2) ?_
                                rw [hcu, hp2e]; simp
                              obtain ⟨p3, hp3⟩ : ∃ p3, p2 = t2 :: p3 := by
                                cases p2 with
                                | nil => exact absurd rfl hp2ne
                                | cons q0 p3 =>
                                    simp only [List.cons_append] at hp2e
                                    injection hp2e with h1 h2
                                    exact ⟨p3, by rw [h1]⟩
                              have hlastp : ∀ u, p2.getLast? = some u → u.info ≠ ("OP", ",") := by
                                intro u hu
                                apply hlast
                                rw [hfc]
                                rw [List.getLast?_append]
                                · simpa [hp3] using hu
                              have hrec2 : parseCommaListLoop pm stop fuel
                                  (p2 ++ last2 :: rest2) = .ok ((es2, last2), rest2) := by
                                rw [← hp2e]; exact hrec
                              have ihc := ih p2 rest2 last2 es2 hlastp hrec2
                              rw [hp2e] at hpm1
                              have hcu2 : front ++ last2 :: rest2 =
                                  c ++ t1 :: (p2 ++ last2 :: rest2) := by
                                rw [hfc]; simp
                              rw [hcu2] at hpm1
                              have htrans := hps c t1 (p2 ++ last2 :: rest2) e1 hpm1
                                t1 (p2 ++ commaTok :: last2 :: rest2) hnl1
                              have hgoalin : front ++ commaTok :: last2 :: rest2 =
                                  c ++ t1 :: (p2 ++ commaTok :: last2 :: rest2) := by
                                rw [hfc]; simp
                              have hX : p2 ++ commaTok :: last2 :: rest2 =
                                  t2 :: (p3 ++ commaTok :: last2 :: rest2) := by
                                rw [hp3]; simp
                              rw [parseCommaListLoop]
                              simp only []
                              rw [hgoalin, htrans]
                              simp only [okBind, comingUp_one_cons]
                              rw [if_neg hs1f, checkAndPop_cons]
                              simp only [hk1, hv1, if_true, okBind]
                              rw [hX, comingUp_one_cons]
                              simp only [okBind]
                              rw [if_neg hs2f, ← hX, ihc]
                              simp only [okBind]
                  · exact absurd h (by simp)
                · exact absurd h (by simp)

lemma parseCommaList_trailing {α : Type} {pm : P α} (hpm : ConsumesNonempty pm)
    (hps : PeekStable pm) {stop : String} (hstop2 : stop ≠ ",")
    {commaTok : Token} (hct : commaTok.info = ("OP", ","))
    (fuel : Nat) (front rest : List Token) (stopTok : Token) (es : List α)
    (hlast : ∀ u, front.getLast? = some u → u.info ≠ ("OP", ","))
    (hne : es ≠ [])
    (h : parseCommaList pm stop fuel (front ++ stopTok :: rest) = .ok ((es, stopTok), rest)) :
    parseCommaList pm stop fuel (front ++ commaTok :: stopTok :: rest) =
      .ok ((es, stopTok), rest) := by
  cases front with
  | nil =>
      exfalso
      rw [parseCommaList] at h
      simp only [List.nil_append] at h
      rw [comingUp_one_cons] at h
      simp only [okBind] at h
      split at h
      · simp only [pop] at h
        obtain ⟨hes, -, -⟩ := okPairEq h
        exact hne hes.symm
      · obtain ⟨⟨p, hpne, hpe⟩, -, -⟩ :=
          parseCommaListLoop_split hpm stop fuel _ es stopTok rest h
        have hl := congrArg List.length hpe
        simp at hl
        exact hpne hl
  | cons f0 front1 =>
      rw [parseCommaList] at h ⊢
      simp only [List.cons_append] at h ⊢
      rw [comingUp_one_cons] at h ⊢
      simp only [okBind] at h ⊢
      split at h
      · rename_i hs0
        exfalso
        simp only [pop] at h
        obtain ⟨hes, -, -⟩ := okPairEq h
        exact hne hes.symm
      · rename_i hs0
        rw [if_neg hs0]
        have h2 : parseCommaListLoop pm stop fuel ((f0 :: front1) ++ stopTok :: rest) =
            .ok ((es, stopTok), rest) := by simpa using h
        have h3 := parseCommaListLoop_trailing hpm hps hstop2 hct fuel (f0 :: front1)
          rest stopTok es hlast h2
        simpa using h3

/-- C6: for every comma list (any element parser with the consumption
and locality properties, which the lemmas above establish for the
expression parser, and any closing delimiter other than the comma
itself), inserting a single trailing comma after the last element,
right before the closing delimiter, yields the same ordered element
sequence and the same closing token; and concretely the statement
a = f(1, "x",); parses to the same Assignment tree as a = f(1, "x");
with value FunctionCall(Name f, [Integer 1, String x]). -/
theorem c6_trailing_comma :
    (∀ (α : Type) (pm : P α) (stop : String) (fuel : Nat) (front rest : List Token)
        (stopTok commaTok : Token) (es : List α),
      ConsumesNonempty pm → PeekStable pm → stop ≠ "," → commaTok.info = ("OP", ",") →
      (∀ u, front.getLast? = some u → u.info ≠ ("OP", ",")) → es ≠ [] →
      parseCommaList pm stop fuel (front ++ stopTok :: rest) = .ok ((es, stopTok), rest) →
      parseCommaList pm stop fuel (front ++ commaTok :: stopTok :: rest) =
        .ok ((es, stopTok), rest)) ∧
    parse [⟨"NAME", "a", 0, 1⟩, ⟨"OP", "=", 2, 3⟩, ⟨"NAME", "f", 4, 5⟩,
      ⟨"OP", "(", 5, 6⟩, ⟨"INTEGER", "1", 6, 7⟩, ⟨"OP", ",", 7, 8⟩,
      ⟨"STRING", "\"x\"", 9, 12⟩, ⟨"OP", ",", 12, 13⟩, ⟨"OP", ")", 13, 14⟩,
      ⟨"OP", ";", 14, 15⟩] =
      .ok [.Assignment (.Name "a" 0 1)
            (.FunctionCall (.Name "f" 4 5) [.Integer 1 6 7, .String "x" 9 12] 4 14) 0 15] ∧
    parse [⟨"NAME", "a", 0, 1⟩, ⟨"OP", "=", 2, 3⟩, ⟨"NAME", "f", 4, 5⟩,
      ⟨"OP", "(", 5, 6⟩, ⟨"INTEGER", "1", 6, 7⟩, ⟨"OP", ",", 7, 8⟩,
      ⟨"STRING", "\"x\"", 9, 12⟩, ⟨"OP", ")", 13, 14⟩, ⟨"OP", ";", 14, 15⟩] =
      .ok [.Assignment (.Name "a" 0 1)
            (.FunctionCall (.Name "f" 4 5) [.Integer 1 6 7, .String "x" 9 12] 4 14) 0 15] := by
  refine ⟨?_, rfl, rfl⟩
  intro α pm stop fuel front rest stopTok commaTok es h1 h2 h3 h4 h5 h6 h7
  exact parseCommaList_trailing h1 h2 h3 h4 fuel front rest stopTok es h5 h6 h7

/-- Witness for C6: the one-element list 1,) with the element parsed
by the expression parser, against the same list without the trailing
comma. -/
theorem c6_trailing_comma_witness :
    parseCommaList (parseExpression 5) ")" 5
      [⟨"INTEGER", "1", 6, 7⟩, ⟨"OP", ",", 7, 8⟩, ⟨"OP", ")", 13, 14⟩, ⟨"OP", ";", 14, 15⟩] =
      .ok (([.Integer 1 6 7], ⟨"OP", ")", 13, 14⟩), [⟨"OP", ";", 14, 15⟩]) :=
  c6_trailing_comma.1 Node (parseExpression 5) ")" 5 [⟨"INTEGER", "1", 6, 7⟩]
    [⟨"OP", ";", 14, 15⟩] ⟨"OP", ")", 13, 14⟩ ⟨"OP", ",", 7, 8⟩ [.Integer 1 6 7]
    (expr_consumption 5).1 (expr_stable 5).1 (by decide) (by decide)
    (by intro u hu; simp at hu; subst hu; decide)
    (by simp) rfl
